import Mathlib

/-!
# Verification of the feed-scraper pipeline (src/FeedScraper.py)

A shallow embedding of the scraper: the pandas `DataFrame` entry store
becomes a list of sparse association-list rows plus a column list, the
keyword/regex matcher becomes an executable word-boundary search together
with a pattern-validity check, and the fetch/process/flush loop becomes
explicit state passing.  External collaborators (HTTP, feedparser, the
sentiment scorer) enter as parameters or as outcome data.
-/

set_option maxHeartbeats 1000000
set_option maxRecDepth 8000

namespace FeedScraper

/-- A cell of the tabular store: entry fields are strings or timestamps,
keyword tags carry the sentiment score.  The score is kept as an integer
stand-in for the scorer's numeric output; only its identity matters here. -/
inductive Cell where
  | str (s : String)
  | ts (n : Nat)
  | score (z : Int)
deriving DecidableEq

/-- One stored row: a sparse mapping from column name to cell, as built by
the Python `data` dict.  A column absent from the row models NaN / no value. -/
abbrev Row := List (String × Cell)

/-- Python dict assignment `data[k] = v`: overwrite in place if the key is
present, else append at the end (insertion order preserved). -/
def dictInsert : Row → String → Cell → Row
  | [], k, v => [(k, v)]
  | (k0, v0) :: rest, k, v =>
    if k0 = k then (k, v) :: rest else (k0, v0) :: dictInsert rest k v

/-- Dict lookup: the recorded value of column `k` in a row, `none` if absent. -/
def rowGet : Row → String → Option Cell
  | [], _ => none
  | (k0, v0) :: rest, k => if k0 = k then some v0 else rowGet rest k

/-- The in-memory `self.df`: a column list plus the stored rows. -/
structure DataFrame where
  columns : List String
  rows : List Row
deriving DecidableEq

/-- The fixed schema of `_initDataFrame` for a fresh (empty) store. -/
def initColumns : List String := ["source", "id", "title", "published", "author", "link"]

/-- `_initDataFrame` when no file exists: empty store with the base columns. -/
def emptyDataFrame : DataFrame := ⟨initColumns, []⟩

/-- `((self.df['source'] == feed.url) & (self.df['id'] == entry.id)).any()`:
a row matches only if both cells are recorded strings equal to the pair;
a missing cell (NaN) or a non-string cell never compares equal. -/
def dfContains (df : DataFrame) (source id : String) : Bool :=
  df.rows.any fun r =>
    decide (rowGet r "source" = some (Cell.str source)) &&
      decide (rowGet r "id" = some (Cell.str id))

/-- `pd.concat([self.df, df_new], ignore_index=True)` for a one-row frame:
the column set becomes the union (new columns appended in the new row's
order), and rows of either side simply have no value for columns they lack. -/
def concatRow (df : DataFrame) (row : Row) : DataFrame :=
  ⟨df.columns ++ (row.map Prod.fst).filter (fun c => decide (c ∉ df.columns)),
   df.rows ++ [row]⟩

/-! ## Keyword matching (`_isKeywordInSenctence`, `_findCoinsInSentence`)

The Python code interpolates each keyword unescaped into the pattern
`\b{keyword}\b` and calls `re.search(..., IGNORECASE | MULTILINE)`.
We model this in two parts: `regexCompileOk` decides whether the pattern
compiles, and `searchWord` performs the case-insensitive word-boundary
search.  The compile scan rejects unbalanced groups, a quantifier
(`+`, `*`, `?`) with nothing to repeat — the position after the leading
`\b` assertion, a `(` or a `|` — quantifier stacking (as CPython < 3.11
does; the lazy forms `*?`, `+?`, `??` are admitted), and an unterminated
character set; braces, backslash escapes outside sets, anchors and set
contents are treated as plain atoms, so theorems assert compile success
only for keywords free of every `re` special character, where each
character really is a literal.  The search is faithful for keywords made
of word characters (alphanumeric or underscore), where both surrounding
`\b` reduce to "the neighbouring text character, if any, is not a word
character". -/

/-- Python regex word character (`\w` over ASCII): alphanumeric or `_`. -/
def wordCharB (c : Char) : Bool := c.isAlphanum || decide (c = '_')

/-- Case-insensitive "the keyword starts here" test. -/
def isPrefixCI : List Char → List Char → Bool
  | [], _ => true
  | _ :: _, [] => false
  | k :: ks, t :: ts => decide (k.toLower = t.toLower) && isPrefixCI ks ts

/-- The character after a match, if any, must not be a word character. -/
def afterBoundaryOk : List Char → Bool
  | [] => true
  | c :: _ => !wordCharB c

/-- Whole-word match at the current position, given whether the previous
text character is a word character. -/
def wordMatchHere (kw text : List Char) (prevWord : Bool) : Bool :=
  !prevWord && isPrefixCI kw text && afterBoundaryOk (text.drop kw.length)

/-- Left-to-right scan of `re.search` for the pattern `\b kw \b`. -/
def searchWord (kw : List Char) : Bool → List Char → Bool
  | prevWord, [] => wordMatchHere kw [] prevWord
  | prevWord, c :: rest => wordMatchHere kw (c :: rest) prevWord || searchWord kw (wordCharB c) rest

/-- `re.error`: the interpolated pattern failed to compile. -/
inductive RegexError where
  | invalidPattern
deriving DecidableEq

/-- What precedes the current scan position in the pattern: nothing
repeatable (the position after the leading `\b` assertion, after `(`, or
after `|`), a repeatable atom, a quantifier (which a following `?` makes
lazy), or a lazy quantifier (after which no further quantifier may
follow). -/
inductive RepState where
  | assertion
  | atom
  | quant
  | lazyQuant
deriving DecidableEq

/-- Mode of the pattern-validity scan: normal scanning (carrying the
`RepState` and open-group depth), or a position inside a `[...]` character
set — just after `[`, after the optional `^`, in the set body, or after a
backslash escape inside the set. -/
inductive ScanMode where
  | normal (st : RepState) (depth : Nat)
  | classFirst (depth : Nat)
  | classAfterCaret (depth : Nat)
  | classBody (depth : Nat)
  | classEsc (depth : Nat)
deriving DecidableEq

/-- Pattern-validity scan for `\b kw \b`, following CPython's parser on
the fragment used here: it fails on `)` without an open group, an unclosed
group, a quantifier with nothing to repeat (also after `(` or `|`),
stacked quantifiers (`??` after a lazy form, or `+`/`*` after any
quantifier, as in CPython < 3.11; `*?`/`+?`/`??` lazy forms pass), and a
character set that never closes (a `]` right after `[` or `[^` is a
literal member).  Other characters — including braces, anchors and
backslash escapes outside sets, and set contents — are treated as plain
atoms. -/
def regexScanOk : List Char → ScanMode → Bool
  | [], .normal _ depth => decide (depth = 0)
  | [], _ => false
  | c :: rest, .normal st depth =>
    if c = '(' then regexScanOk rest (.normal .assertion (depth + 1))
    else if c = ')' then
      (if depth = 0 then false else regexScanOk rest (.normal .atom (depth - 1)))
    else if c = '|' then regexScanOk rest (.normal .assertion depth)
    else if c = '+' ∨ c = '*' then
      (if st = .atom then regexScanOk rest (.normal .quant depth) else false)
    else if c = '?' then
      (if st = .atom then regexScanOk rest (.normal .quant depth)
       else if st = .quant then regexScanOk rest (.normal .lazyQuant depth)
       else false)
    else if c = '[' then regexScanOk rest (.classFirst depth)
    else regexScanOk rest (.normal .atom depth)
  | c :: rest, .classFirst depth =>
    if c = '^' then regexScanOk rest (.classAfterCaret depth)
    else if c = '\\' then regexScanOk rest (.classEsc depth)
    else regexScanOk rest (.classBody depth)
  | c :: rest, .classAfterCaret depth =>
    if c = '\\' then regexScanOk rest (.classEsc depth)
    else regexScanOk rest (.classBody depth)
  | c :: rest, .classBody depth =>
    if c = ']' then regexScanOk rest (.normal .atom depth)
    else if c = '\\' then regexScanOk rest (.classEsc depth)
    else regexScanOk rest (.classBody depth)
  | _ :: rest, .classEsc depth => regexScanOk rest (.classBody depth)

/-- Does `re.compile(fr"\b{keyword}\b")` succeed?  The scan starts right
after the `\b` assertion, outside any group or set. -/
def regexCompileOk (keyword : String) : Bool :=
  regexScanOk keyword.toList (.normal .assertion 0)

/-- `_isKeywordInSenctence` (source spelling kept): compile the pattern
`\b{keyword}\b` — raising `re.error` on an invalid interpolation — then
search case-insensitively. -/
def isKeywordInSenctence (sentence keyword : String) : Except RegexError Bool :=
  if regexCompileOk keyword then .ok (searchWord keyword.toList false sentence.toList)
  else .error .invalidPattern

/-- The keyword configuration `self.keywords`: JSON object mapping each
keyword to its alias list, in insertion order. -/
abbrev KeywordIndex := List (String × List String)

/-- The inner alias loop of `_findCoinsInSentence`: first matching alias
wins; a bad alias pattern raises (propagated explicitly). -/
def aliasLoop (sentence : String) : List String → Except RegexError Bool
  | [] => .ok false
  | a :: rest =>
    match isKeywordInSenctence sentence a with
    | .error e => .error e
    | .ok true => .ok true
    | .ok false => aliasLoop sentence rest

/-- `_findCoinsInSentence`: for each keyword in configured order, match the
keyword itself or, failing that, any of its aliases; collect the keywords
found.  A regex failure propagates as the exception it is in Python. -/
def findCoinsInSentence (keywords : KeywordIndex) (sentence : String) :
    Except RegexError (List String) :=
  match keywords with
  | [] => .ok []
  | (k, tags) :: rest =>
    match isKeywordInSenctence sentence k with
    | .error e => .error e
    | .ok b =>
      match (if b then .ok true else aliasLoop sentence tags : Except RegexError Bool) with
      | .error e => .error e
      | .ok found =>
        match findCoinsInSentence rest sentence with
        | .error e => .error e
        | .ok others => .ok (if found then k :: others else others)

/-! ## Entries and the per-entry pipeline (`_processFeedEntry`) -/

/-- A parsed feed entry as exposed by feedparser: every field may be
missing.  `published_parsed` models the parsed timestamp
(`time.mktime(entry.published_parsed)` collapsed to one number). -/
structure FeedEntry where
  title : Option String
  published_parsed : Option Nat
  id : Option String
  author : Option String
  link : Option String
deriving DecidableEq

/-- What `_processFeedEntry` did with one entry. -/
inductive Outcome where
  | rejectedMissingTitle
  | rejectedMissingPublished
  | rejectedMissingId
  | skippedDuplicate
  | added
deriving DecidableEq

/-- The scraper's mutable state: `self.df`, the `self.update_db` dirty
flag, and the durable store as of the last successful flush (the pickle
file; `none` when no store file exists yet). -/
structure State where
  df : DataFrame
  update_db : Bool
  persisted : Option DataFrame
deriving DecidableEq

/-- The `data` dict built for a new entry, in source statement order:
mandatory fields, then `author`/`link` if present, then one sentiment
column per found keyword. -/
def buildRowData (feedUrl : String) (e : FeedEntry) (title id : String) (published : Nat)
    (sentiment : Int) (keywords_found : List String) : Row :=
  let data : Row := []
  let data := dictInsert data "source" (.str feedUrl)
  let data := dictInsert data "id" (.str id)
  let data := dictInsert data "title" (.str title)
  let data := dictInsert data "published" (.ts published)
  let data := match e.author with
    | some a => dictInsert data "author" (.str a)
    | none => data
  let data := match e.link with
    | some l => dictInsert data "link" (.str l)
    | none => data
  keywords_found.foldl (fun d k => dictInsert d k (.score sentiment)) data

/-- `_processFeedEntry`: reject on a missing mandatory field, skip a known
`(source, id)` pair, otherwise tag and append the new row and mark the
store dirty.  `sia` is the external sentiment scorer (compound score of
the title).  A regex failure inside keyword matching escapes before any
mutation, exactly as the Python exception does. -/
def processFeedEntry (kws : KeywordIndex) (sia : String → Int) (feedUrl : String)
    (entry : FeedEntry) (s : State) : Except RegexError (State × Outcome) :=
  match entry.title with
  | none => .ok (s, .rejectedMissingTitle)
  | some title =>
    match entry.published_parsed with
    | none => .ok (s, .rejectedMissingPublished)
    | some published =>
      match entry.id with
      | none => .ok (s, .rejectedMissingId)
      | some id =>
        if dfContains s.df feedUrl id then .ok (s, .skippedDuplicate)
        else
          let sentiment := sia title
          match findCoinsInSentence kws title with
          | .error e => .error e
          | .ok keywords_found =>
            let row := buildRowData feedUrl entry title id published sentiment keywords_found
            .ok ({ s with df := concatRow s.df row, update_db := true }, .added)

/-- The `for entry in d.entries` loop inside `_fetchAndProcessFeed`'s
`try`: an exception from one entry ends the loop, keeping the mutations of
the earlier iterations (the handler only logs). -/
def processEntriesLoop (kws : KeywordIndex) (sia : String → Int) (feedUrl : String) :
    List FeedEntry → State → State
  | [], s => s
  | e :: es, s =>
    match processFeedEntry kws sia feedUrl e s with
    | .ok (s', _) => processEntriesLoop kws sia feedUrl es s'
    | .error _ => s

/-! ## Fetching (`_fetchAndProcessFeed`) -/

/-- A per-feed source with its cache validators, `FeedScraper.Feed`. -/
structure Feed where
  url : String
  etag : String
  modified : String
deriving DecidableEq

/-- What `feedparser.parse` did with the response body. -/
inductive ParseOutcome where
  | parsed (entries : List FeedEntry)
  | parseError
deriving DecidableEq

/-- The observable outcome of `requests.get` for one fetch: either the
request itself raised (network error, timeout), or a response arrived with
a status code, optional validator headers, and a body. -/
inductive FetchResult where
  | netError
  | response (status : Nat) (etag lastModified : Option String) (body : ParseOutcome)
deriving DecidableEq

/-- The header-update block: each validator is overwritten when the
response carries the corresponding header and kept otherwise. -/
def updateValidators (feed : Feed) (etag lastModified : Option String) : Feed :=
  { feed with etag := etag.getD feed.etag, modified := lastModified.getD feed.modified }

/-- `_fetchAndProcessFeed`: on a request exception nothing happens; on any
response the validators are updated from present headers, then status 304
and error statuses contribute no entries, and a 200 body is parsed and
processed entry by entry (a parse exception is caught by the same
handler). -/
def fetchAndProcessFeed (kws : KeywordIndex) (sia : String → Int) (feed : Feed)
    (res : FetchResult) (s : State) : Feed × State :=
  match res with
  | .netError => (feed, s)
  | .response status etag lastModified body =>
    let feed' := updateValidators feed etag lastModified
    if status = 304 then (feed', s)
    else if status ≠ 200 then (feed', s)
    else
      match body with
      | .parseError => (feed', s)
      | .parsed entries => (feed', processEntriesLoop kws sia feed.url entries s)

/-- A failing fetch in the sense of the isolation contract: a request
exception, an error status (neither 200 nor 304), or a parse failure. -/
def isFailedFetch : FetchResult → Bool
  | .netError => true
  | .response status _ _ body =>
    (decide (status ≠ 200) && decide (status ≠ 304)) ||
      (decide (status = 200) && decide (body = ParseOutcome.parseError))

/-- The validators a feed ends up with after one fetch attempt: untouched
when the request raised, otherwise updated from any present headers. -/
def feedAfterFetch (feed : Feed) : FetchResult → Feed
  | .netError => feed
  | .response _ etag lastModified _ => updateValidators feed etag lastModified

/-! ## Per-feed flush inside `scrape` -/

/-- `to_pickle`/`to_csv` failing with an I/O error. -/
inductive FlushError where
  | ioError
deriving DecidableEq

/-- The `if self.update_db:` block of `scrape`: persist only when dirty;
on success record the snapshot and clear the flag; on failure the raised
exception leaves the flag set and the old snapshot in place. -/
def flushStep (s : State) (ioOk : Bool) : State × Option FlushError :=
  if s.update_db then
    if ioOk then ({ s with persisted := some s.df, update_db := false }, none)
    else (s, some .ioError)
  else (s, none)

/-- One pass of the `for feed in self.feeds` loop: each feed is fetched
and processed, then flushed if dirty.  A flush exception is uncaught and
aborts the pass with the state reached so far; fetch/parse/entry errors
never do.  Each step carries the fetch outcome for that feed and whether
the flush I/O would succeed. -/
def scrapePassLoop (kws : KeywordIndex) (sia : String → Int) :
    List (Feed × FetchResult × Bool) → State → List Feed × State × Option FlushError
  | [], s => ([], s, none)
  | (feed, res, ioOk) :: rest, s =>
    let p := fetchAndProcessFeed kws sia feed res s
    match flushStep p.2 ioOk with
    | (s', none) =>
      let r := scrapePassLoop kws sia rest s'
      (p.1 :: r.1, r.2)
    | (s', some e) => ([p.1], s', some e)

/-! ## Feed-list loading (`_initFeeds`) -/

/-- `line.rstrip('\n')`: remove all trailing newline characters. -/
def rstripNl (s : String) : String :=
  ⟨(s.toList.reverse.dropWhile (fun c => decide (c = '\n'))).reverse⟩

/-- The `IndexError` raised by `url[-1]` on an empty string. -/
inductive InitError where
  | indexError
deriving DecidableEq

/-- The line loop of `_initFeeds`: strip the newline, read the last
character (raising `IndexError` on an empty line), append a slash when
missing, and build the `Feed` with empty validators. -/
def initFeeds : List String → Except InitError (List Feed)
  | [] => .ok []
  | line :: rest =>
    let url := rstripNl line
    if url = "" then .error .indexError
    else
      let url2 := if url.back ≠ '/' then url ++ "/" else url
      match initFeeds rest with
      | .ok feeds => .ok (⟨url2, "", ""⟩ :: feeds)
      | .error e => .error e

/-! ## Claim-side matching predicates

Two reference predicates for whole-word occurrence, stated by position so
they can be compared with the scanner `searchWord`.  `matchAtPrev` uses
the code's boundary notion (word characters: alphanumeric or underscore);
`claimMatchAt` follows the specification's words, with boundaries at
non-alphanumeric characters or the string edges. -/

/-- Whole-word match of `kw` at position `i` of `text`, boundaries taken
at non-word characters or edges; position 0 consults `prev`, the
word-character status of the character before `text`. -/
def matchAtPrev (prev : Bool) (text kw : List Char) (i : Nat) : Bool :=
  isPrefixCI kw (text.drop i) &&
    (match i with
     | 0 => !prev
     | j + 1 =>
       match text.get? j with
       | some c => !wordCharB c
       | none => false) &&
    afterBoundaryOk (text.drop (i + kw.length))

/-- `kw` occurs in `text` as a case-insensitive whole word, with word
boundaries at non-word characters (alphanumeric or underscore) or edges:
the matching notion the code actually implements. -/
def wordOccurs (kw text : String) : Bool :=
  (List.range (text.toList.length + 1)).any (matchAtPrev false text.toList kw.toList)

/-- Boundary test of the specification text, before position `i`: the
string edge or a non-alphanumeric character. -/
def claimPrevOk (text : List Char) : Nat → Bool
  | 0 => true
  | j + 1 =>
    match text.get? j with
    | some c => !c.isAlphanum
    | none => false

/-- Boundary test of the specification text, after a match. -/
def claimAfterOk : List Char → Bool
  | [] => true
  | c :: _ => !c.isAlphanum

/-- Whole-word match at position `i` with the specification's boundaries
(non-alphanumeric characters or edges). -/
def claimMatchAt (text kw : List Char) (i : Nat) : Bool :=
  isPrefixCI kw (text.drop i) && claimPrevOk text i && claimAfterOk (text.drop (i + kw.length))

/-- Occurrence as a case-insensitive whole-word substring with the
specification's boundary notion: non-alphanumeric characters or edges. -/
def claimBoundaryOccurs (kw text : String) : Bool :=
  (List.range (text.toList.length + 1)).any (claimMatchAt text.toList kw.toList)

/-- The set of all column names recorded in any stored row. -/
def allRowKeys (rows : List Row) : Finset String :=
  rows.foldr (fun r acc => (r.map Prod.fst).toFinset ∪ acc) ∅

/-- The keyword columns a single row records: its recorded columns minus
the fixed base schema. -/
def rowKeywordCols (r : Row) : Finset String :=
  (r.map Prod.fst).toFinset \ initColumns.toFinset

/-- The sparse-column invariant of the store: the column set is exactly the
fixed base columns together with every column recorded by some row. -/
def storeColumnsInv (df : DataFrame) : Prop :=
  df.columns.toFinset = initColumns.toFinset ∪ allRowKeys df.rows

/-- Python `re`'s special characters: every character that is not one of
these stands for itself in a pattern. -/
def metaChars : List Char :=
  ['(', ')', '|', '+', '*', '?', '[', ']', '{', '}', '\\', '.', '^', '$']

/-- The character is not a regex metacharacter. -/
def notMetaChar (c : Char) : Bool := decide (c ∉ metaChars)

/-- The string is free of regex metacharacters: interpolated into a
pattern, each of its characters is a literal. -/
def noMeta (s : String) : Bool := s.toList.all notMetaChar

/-- All characters of the string are word characters. -/
def allWordChars (s : String) : Bool := s.toList.all wordCharB

/-! ## Concrete instances used by counterexamples and failure scenarios -/

/-- A stored row for the pair `("http://a/", "1")`. -/
def dupRow : Row :=
  [("source", .str "http://a/"), ("id", .str "1"), ("title", .str "t"), ("published", .ts 0)]

/-- A store already containing `dupRow`. -/
def dupStore : DataFrame := ⟨initColumns, [dupRow]⟩

/-- An entry whose title will be matched against the keyword index. -/
def sampleEntryOne : FeedEntry := ⟨some "Bitcoin rallies", some 100, some "a1", none, none⟩

/-- A second, independent entry of the same feed. -/
def sampleEntryTwo : FeedEntry := ⟨some "Ethereum dips", some 101, some "a2", none, none⟩

/-- Fresh scraper state: empty store, clean flag, no store file yet. -/
def sampleStateEmpty : State := ⟨emptyDataFrame, false, none⟩

/-- A keyword whose first pattern character is a quantifier: the
interpolated pattern has nothing to repeat and fails to compile. -/
def metaKeywordIndex : KeywordIndex := [("+coin", [])]

/-- The same configuration with a plain keyword instead. -/
def plainKeywordIndex : KeywordIndex := [("bitcoin", [])]

/-- A concrete stand-in for the external sentiment scorer. -/
def zeroSia : String → Int := fun _ => 0

/-! ## Lemmas: rows and the dict model -/

theorem rowGet_dictInsert_self (d : Row) (k : String) (v : Cell) :
    rowGet (dictInsert d k v) k = some v := by
  induction d with
  | nil => simp [dictInsert, rowGet]
  | cons p rest ih =>
    obtain ⟨k0, v0⟩ := p
    by_cases h : k0 = k
    · simp [dictInsert, h, rowGet]
    · simp [dictInsert, h, rowGet, ih]

theorem rowGet_dictInsert_ne (d : Row) (k : String) (v : Cell) (q : String) (h : q ≠ k) :
    rowGet (dictInsert d k v) q = rowGet d q := by
  induction d with
  | nil => simp [dictInsert, rowGet, Ne.symm h]
  | cons p rest ih =>
    obtain ⟨k0, v0⟩ := p
    by_cases h0 : k0 = k
    · subst h0
      simp [dictInsert, rowGet, Ne.symm h]
    · simp [dictInsert, h0, rowGet, ih]

theorem keys_dictInsert (d : Row) (k : String) (v : Cell) :
    ((dictInsert d k v).map Prod.fst).toFinset = insert k (d.map Prod.fst).toFinset := by
  induction d with
  | nil => simp [dictInsert]
  | cons p rest ih =>
    obtain ⟨k0, v0⟩ := p
    by_cases h : k0 = k
    · subst h
      simp [dictInsert]
    · simp only [dictInsert, if_neg h, List.map_cons, List.toFinset_cons, ih]
      ext x
      simp
      try tauto

theorem rowGet_foldl_not_mem : ∀ (l : List String) (d : Row) (c : Cell) (q : String),
    q ∉ l →
    rowGet (l.foldl (fun d2 k => dictInsert d2 k c) d) q = rowGet d q
  | [], _, _, _, _ => rfl
  | a :: rest, d, c, q, h => by
    simp only [List.foldl_cons]
    rw [rowGet_foldl_not_mem rest _ c q (fun hh => h (List.mem_cons_of_mem a hh)),
      rowGet_dictInsert_ne _ _ _ _ (fun hh => h (by rw [hh]; exact List.mem_cons_self a rest))]

theorem rowGet_foldl_mem : ∀ (l : List String) (d : Row) (c : Cell) (q : String),
    q ∈ l →
    rowGet (l.foldl (fun d2 k => dictInsert d2 k c) d) q = some c
  | [], _, _, q, h => absurd h (List.not_mem_nil q)
  | a :: rest, d, c, q, h => by
    simp only [List.foldl_cons]
    by_cases hr : q ∈ rest
    · exact rowGet_foldl_mem rest _ c q hr
    · have hqa : q = a := by
        rcases List.mem_cons.mp h with h1 | h2
        · exact h1
        · exact absurd h2 hr
      subst hqa
      rw [rowGet_foldl_not_mem rest _ c q hr, rowGet_dictInsert_self]

theorem keys_foldl : ∀ (l : List String) (d : Row) (c : Cell),
    ((l.foldl (fun d2 k => dictInsert d2 k c) d).map Prod.fst).toFinset
      = (d.map Prod.fst).toFinset ∪ l.toFinset
  | [], d, c => by simp
  | a :: rest, d, c => by
    simp only [List.foldl_cons]
    rw [keys_foldl rest _ c, keys_dictInsert]
    ext x
    simp
    try tauto

/-! ## Lemmas: the row built for a new entry -/

theorem rowGet_buildRowData_source (url : String) (e : FeedEntry) (t i : String) (p : Nat)
    (sent : Int) (kwf : List String) (h : "source" ∉ kwf) :
    rowGet (buildRowData url e t i p sent kwf) "source" = some (.str url) := by
  cases ha : e.author <;> cases hl : e.link <;>
    · dsimp only [buildRowData]
      rw [ha, hl]
      rw [rowGet_foldl_not_mem _ _ _ _ h]
      repeat rw [rowGet_dictInsert_ne _ _ _ _ (by decide)]
      rw [rowGet_dictInsert_self]

theorem rowGet_buildRowData_id (url : String) (e : FeedEntry) (t i : String) (p : Nat)
    (sent : Int) (kwf : List String) (h : "id" ∉ kwf) :
    rowGet (buildRowData url e t i p sent kwf) "id" = some (.str i) := by
  cases ha : e.author <;> cases hl : e.link <;>
    · dsimp only [buildRowData]
      rw [ha, hl]
      rw [rowGet_foldl_not_mem _ _ _ _ h]
      repeat rw [rowGet_dictInsert_ne _ _ _ _ (by decide)]
      rw [rowGet_dictInsert_self]

theorem rowGet_buildRowData_author (url : String) (e : FeedEntry) (t i : String) (p : Nat)
    (sent : Int) (kwf : List String) (h : "author" ∉ kwf) :
    rowGet (buildRowData url e t i p sent kwf) "author" = e.author.map Cell.str := by
  cases ha : e.author <;> cases hl : e.link <;>
    · dsimp only [buildRowData]
      rw [ha, hl]
      rw [rowGet_foldl_not_mem _ _ _ _ h]
      repeat rw [rowGet_dictInsert_ne _ _ _ _ (by decide)]
      first
      | rw [rowGet_dictInsert_self]; rfl
      | rfl

theorem rowGet_buildRowData_link (url : String) (e : FeedEntry) (t i : String) (p : Nat)
    (sent : Int) (kwf : List String) (h : "link" ∉ kwf) :
    rowGet (buildRowData url e t i p sent kwf) "link" = e.link.map Cell.str := by
  cases ha : e.author <;> cases hl : e.link <;>
    · dsimp only [buildRowData]
      rw [ha, hl]
      rw [rowGet_foldl_not_mem _ _ _ _ h]
      repeat rw [rowGet_dictInsert_ne _ _ _ _ (by decide)]
      first
      | rw [rowGet_dictInsert_self]; rfl
      | rfl

theorem rowGet_buildRowData_found (url : String) (e : FeedEntry) (t i : String) (p : Nat)
    (sent : Int) (kwf : List String) (q : String) (hq : q ∈ kwf) :
    rowGet (buildRowData url e t i p sent kwf) q = some (.score sent) := by
  unfold buildRowData
  exact rowGet_foldl_mem _ _ _ _ hq

theorem rowGet_buildRowData_not_base (url : String) (e : FeedEntry) (t i : String) (p : Nat)
    (sent : Int) (kwf : List String) (q : String) (hq : q ∉ kwf) (hbase : q ∉ initColumns) :
    rowGet (buildRowData url e t i p sent kwf) q = none := by
  simp only [initColumns, List.mem_cons, List.not_mem_nil, or_false, not_or] at hbase
  obtain ⟨h1, h2, h3, h4, h5, h6⟩ := hbase
  cases ha : e.author <;> cases hl : e.link <;>
    · dsimp only [buildRowData]
      rw [ha, hl]
      rw [rowGet_foldl_not_mem _ _ _ _ hq]
      repeat
        first
        | rw [rowGet_dictInsert_ne _ "link" _ _ h6]
        | rw [rowGet_dictInsert_ne _ "author" _ _ h5]
        | rw [rowGet_dictInsert_ne _ "published" _ _ h4]
        | rw [rowGet_dictInsert_ne _ "title" _ _ h3]
        | rw [rowGet_dictInsert_ne _ "id" _ _ h2]
        | rw [rowGet_dictInsert_ne _ "source" _ _ h1]
      rfl

theorem rowKeywordCols_buildRowData (url : String) (e : FeedEntry) (t i : String) (p : Nat)
    (sent : Int) (kwf : List String) (h : ∀ k ∈ kwf, k ∉ initColumns) :
    rowKeywordCols (buildRowData url e t i p sent kwf) = kwf.toFinset := by
  unfold rowKeywordCols
  have hstep : ∀ d0 : Row, (∀ q ∈ d0.map Prod.fst, q ∈ initColumns) →
      (((kwf.foldl (fun d2 k => dictInsert d2 k (.score sent)) d0).map Prod.fst).toFinset
        \ initColumns.toFinset) = kwf.toFinset := by
    intro d0 hd0
    rw [keys_foldl]
    ext x
    simp only [Finset.mem_sdiff, Finset.mem_union, List.mem_toFinset]
    constructor
    · rintro ⟨hx | hx, hnx⟩
      · exact absurd (hd0 x hx) hnx
      · exact hx
    · intro hx
      exact ⟨Or.inr hx, h x hx⟩
  cases ha : e.author <;> cases hl : e.link <;>
    · dsimp only [buildRowData]
      rw [ha, hl]
      refine hstep _ ?_
      intro q hqmem
      rw [← List.mem_toFinset] at hqmem
      repeat rw [keys_dictInsert] at hqmem
      simp only [List.map_nil, List.toFinset_nil, Finset.mem_insert,
        Finset.not_mem_empty, or_false] at hqmem
      simp only [initColumns, List.mem_cons, List.not_mem_nil, or_false]
      tauto

/-! ## Lemmas: pattern compilation and the word-boundary scan -/

theorem regexScanOk_noMeta : ∀ (l : List Char) (st : RepState),
    (∀ c ∈ l, notMetaChar c = true) → regexScanOk l (.normal st 0) = true
  | [], _, _ => rfl
  | c :: rest, st, h => by
    have hc := h c (List.mem_cons_self c rest)
    have hrest : ∀ x ∈ rest, notMetaChar x = true :=
      fun x hx => h x (List.mem_cons_of_mem c hx)
    simp only [notMetaChar, decide_eq_true_eq, metaChars, List.mem_cons,
      List.not_mem_nil, or_false, not_or] at hc
    obtain ⟨h1, h2, h3, h4, h5, h6, h7, -⟩ := hc
    simp only [regexScanOk, if_neg h1, if_neg h2, if_neg h3]
    rw [if_neg (by rintro (hp | hp); exacts [h4 hp, h5 hp]), if_neg h6, if_neg h7]
    exact regexScanOk_noMeta rest .atom hrest

theorem regexCompileOk_of_noMeta (s : String) (h : noMeta s = true) :
    regexCompileOk s = true :=
  regexScanOk_noMeta _ _ (by simpa [noMeta, List.all_eq_true] using h)

theorem notMetaChar_of_wordChar (c : Char) (h : wordCharB c = true) : notMetaChar c = true := by
  simp only [wordCharB, Bool.or_eq_true, decide_eq_true_eq] at h
  simp only [notMetaChar, decide_eq_true_eq]
  intro hmem
  rcases h with h | h
  · simp only [metaChars, List.mem_cons, List.not_mem_nil, or_false] at hmem
    rcases hmem with rfl | rfl | rfl | rfl | rfl | rfl | rfl | rfl | rfl | rfl | rfl
      | rfl | rfl | rfl <;>
      exact absurd h (by decide)
  · subst h
    exact absurd hmem (by decide)

theorem regexCompileOk_of_wordChars (s : String) (h : allWordChars s = true) :
    regexCompileOk s = true :=
  regexScanOk_noMeta _ _ fun c hc =>
    notMetaChar_of_wordChar c (List.all_eq_true.mp h c hc)

theorem list_any_ext {α : Type} (l : List α) (p q : α → Bool) (h : ∀ x, p x = q x) :
    l.any p = l.any q := by
  induction l with
  | nil => rfl
  | cons a t ih => simp [List.any_cons, h a, ih]

theorem searchWord_eq_any : ∀ (text : List Char) (prev : Bool) (kw : List Char),
    searchWord kw prev text
      = (List.range (text.length + 1)).any (matchAtPrev prev text kw)
  | [], prev, kw => by
    simp [searchWord, wordMatchHere, matchAtPrev, afterBoundaryOk, List.range_succ,
      Bool.and_comm]
  | c :: rest, prev, kw => by
    have hstep : ∀ j : Nat,
        matchAtPrev prev (c :: rest) kw (j + 1) = matchAtPrev (wordCharB c) rest kw j := by
      intro j
      simp only [matchAtPrev]
      rw [Nat.add_right_comm j 1 kw.length]
      cases j <;> rfl
    have hA : matchAtPrev prev (c :: rest) kw 0 = wordMatchHere kw (c :: rest) prev := by
      simp only [matchAtPrev, wordMatchHere, List.drop_zero, Nat.zero_add]
      cases prev <;> cases hp : isPrefixCI kw (c :: rest) <;> simp [hp]
    have hr : List.range ((c :: rest).length + 1)
        = 0 :: (List.range (rest.length + 1)).map Nat.succ := by
      simp [List.range_succ_eq_map]
    simp only [searchWord]
    rw [searchWord_eq_any rest (wordCharB c) kw, hr]
    simp only [List.any_cons, List.any_map]
    rw [hA]
    congr 1
    apply list_any_ext
    intro j
    simpa [Function.comp] using (hstep j).symm

theorem isKeywordInSenctence_wordChars (text kw : String) (h : allWordChars kw = true) :
    isKeywordInSenctence text kw = .ok (wordOccurs kw text) := by
  unfold isKeywordInSenctence
  rw [regexCompileOk_of_wordChars kw h]
  simp only [if_true]
  rw [searchWord_eq_any]
  rfl

/-! ## Lemmas: the keyword loop -/

theorem aliasLoop_wordChars (text : String) : ∀ (aliases : List String),
    (∀ a ∈ aliases, allWordChars a = true) →
    aliasLoop text aliases = .ok (aliases.any (fun a => wordOccurs a text))
  | [], _ => rfl
  | a :: rest, h => by
    have ha := h a (List.mem_cons_self a rest)
    have hrest := fun x hx => h x (List.mem_cons_of_mem a hx)
    have ih := aliasLoop_wordChars text rest hrest
    simp only [aliasLoop]
    rw [isKeywordInSenctence_wordChars text a ha]
    cases hw : wordOccurs a text <;> simp [ih, List.any_cons, hw]

theorem findCoins_wordChars (text : String) : ∀ (kws : KeywordIndex),
    (∀ p ∈ kws, allWordChars p.1 = true ∧ ∀ a ∈ p.2, allWordChars a = true) →
    findCoinsInSentence kws text
      = .ok ((kws.filter
          (fun p => wordOccurs p.1 text || p.2.any (fun a => wordOccurs a text))).map Prod.fst)
  | [], _ => rfl
  | (k, tags) :: rest, h => by
    obtain ⟨hk, htags⟩ := h (k, tags) (List.mem_cons_self _ _)
    have hrest := fun p hp => h p (List.mem_cons_of_mem _ hp)
    have h1 := isKeywordInSenctence_wordChars text k hk
    have h2 := aliasLoop_wordChars text tags htags
    have h3 := findCoins_wordChars text rest hrest
    simp only [findCoinsInSentence, h1, h2, h3]
    cases hw : wordOccurs k text <;>
      cases ha : tags.any (fun a => wordOccurs a text) <;>
        simp [List.filter_cons, List.any_cons, hw, ha]

theorem findCoins_subset : ∀ (kws : KeywordIndex) (text : String) (l : List String),
    findCoinsInSentence kws text = .ok l → ∀ q ∈ l, q ∈ kws.map Prod.fst
  | [], text, l, h => by
    simp only [findCoinsInSentence] at h
    cases h
    simp
  | (k, tags) :: rest, text, l, h => by
    cases h1 : isKeywordInSenctence text k with
    | error e =>
      have heq : findCoinsInSentence ((k, tags) :: rest) text = .error e := by
        simp [findCoinsInSentence, h1]
      rw [heq] at h
      cases h
    | ok b =>
      cases b with
      | true =>
        cases h3 : findCoinsInSentence rest text with
        | error e =>
          have heq : findCoinsInSentence ((k, tags) :: rest) text = .error e := by
            simp [findCoinsInSentence, h1, h3]
          rw [heq] at h
          cases h
        | ok others =>
          have heq : findCoinsInSentence ((k, tags) :: rest) text = .ok (k :: others) := by
            simp [findCoinsInSentence, h1, h3]
          rw [heq] at h
          injection h with h4
          subst h4
          intro q hq
          simp only [List.map_cons, List.mem_cons]
          rcases List.mem_cons.mp hq with h5 | h5
          · exact Or.inl h5
          · exact Or.inr (findCoins_subset rest text others h3 q h5)
      | false =>
        cases h2 : aliasLoop text tags with
        | error e =>
          have heq : findCoinsInSentence ((k, tags) :: rest) text = .error e := by
            simp [findCoinsInSentence, h1, h2]
          rw [heq] at h
          cases h
        | ok found =>
          cases h3 : findCoinsInSentence rest text with
          | error e =>
            have heq : findCoinsInSentence ((k, tags) :: rest) text = .error e := by
              simp [findCoinsInSentence, h1, h2, h3]
            rw [heq] at h
            cases h
          | ok others =>
            have heq : findCoinsInSentence ((k, tags) :: rest) text
                = .ok (if found then k :: others else others) := by
              simp [findCoinsInSentence, h1, h2, h3]
            rw [heq] at h
            injection h with h4
            subst h4
            intro q hq
            simp only [List.map_cons, List.mem_cons]
            cases found with
            | true =>
              rw [if_pos rfl] at hq
              rcases List.mem_cons.mp hq with h5 | h5
              · exact Or.inl h5
              · exact Or.inr (findCoins_subset rest text others h3 q h5)
            | false =>
              rw [if_neg (by decide)] at hq
              exact Or.inr (findCoins_subset rest text others h3 q hq)

theorem aliasLoop_total (text : String) : ∀ (aliases : List String),
    (∀ a ∈ aliases, noMeta a = true) → ∃ b, aliasLoop text aliases = .ok b
  | [], _ => ⟨false, rfl⟩
  | a :: rest, h => by
    have hcomp : isKeywordInSenctence text a = .ok (searchWord a.toList false text.toList) := by
      unfold isKeywordInSenctence
      rw [regexCompileOk_of_noMeta a (h a (List.mem_cons_self a rest))]
      simp
    simp only [aliasLoop, hcomp]
    cases hs : searchWord a.toList false text.toList
    · obtain ⟨b, hb⟩ := aliasLoop_total text rest (fun x hx => h x (List.mem_cons_of_mem a hx))
      exact ⟨b, hb⟩
    · exact ⟨true, rfl⟩

theorem findCoins_total (text : String) : ∀ (kws : KeywordIndex),
    (∀ p ∈ kws, noMeta p.1 = true ∧ ∀ a ∈ p.2, noMeta a = true) →
    ∃ l, findCoinsInSentence kws text = .ok l
  | [], _ => ⟨[], rfl⟩
  | (k, tags) :: rest, h => by
    obtain ⟨hk, htags⟩ := h (k, tags) (List.mem_cons_self _ _)
    obtain ⟨l0, hl0⟩ := findCoins_total text rest (fun p hp => h p (List.mem_cons_of_mem _ hp))
    have hcomp : isKeywordInSenctence text k = .ok (searchWord k.toList false text.toList) := by
      unfold isKeywordInSenctence
      rw [regexCompileOk_of_noMeta k hk]
      simp
    simp only [findCoinsInSentence, hcomp]
    cases hs : searchWord k.toList false text.toList
    · obtain ⟨b, hb⟩ := aliasLoop_total text tags htags
      rw [hb, hl0]
      exact ⟨if b then k :: l0 else l0, rfl⟩
    · rw [hl0]
      exact ⟨k :: l0, rfl⟩

/-! ## Lemmas: the per-entry pipeline -/

theorem processFeedEntry_missing (kws : KeywordIndex) (sia : String → Int) (url : String)
    (e : FeedEntry) (s : State)
    (h : e.title = none ∨ e.published_parsed = none ∨ e.id = none) :
    ∃ out, processFeedEntry kws sia url e s = .ok (s, out)
      ∧ out ≠ .added ∧ out ≠ .skippedDuplicate := by
  cases ht : e.title with
  | none => exact ⟨.rejectedMissingTitle, by simp [processFeedEntry, ht], by decide, by decide⟩
  | some t =>
    cases hp : e.published_parsed with
    | none =>
      exact ⟨.rejectedMissingPublished, by simp [processFeedEntry, ht, hp], by decide, by decide⟩
    | some p =>
      cases hi : e.id with
      | none =>
        exact ⟨.rejectedMissingId, by simp [processFeedEntry, ht, hp, hi], by decide, by decide⟩
      | some i =>
        rcases h with h | h | h
        · rw [ht] at h; cases h
        · rw [hp] at h; cases h
        · rw [hi] at h; cases h

theorem processFeedEntry_dup (kws : KeywordIndex) (sia : String → Int) (url : String)
    (e : FeedEntry) (s : State) (t : String) (p : Nat) (i : String)
    (ht : e.title = some t) (hp : e.published_parsed = some p) (hi : e.id = some i)
    (hc : dfContains s.df url i = true) :
    processFeedEntry kws sia url e s = .ok (s, .skippedDuplicate) := by
  simp [processFeedEntry, ht, hp, hi, hc]

theorem processFeedEntry_added_inv (kws : KeywordIndex) (sia : String → Int) (url : String)
    (e : FeedEntry) (s s' : State)
    (h : processFeedEntry kws sia url e s = .ok (s', .added)) :
    ∃ t p i found, e.title = some t ∧ e.published_parsed = some p ∧ e.id = some i
      ∧ dfContains s.df url i = false
      ∧ findCoinsInSentence kws t = .ok found
      ∧ s' = ⟨concatRow s.df (buildRowData url e t i p (sia t) found), true, s.persisted⟩ := by
  cases ht : e.title with
  | none => simp [processFeedEntry, ht] at h
  | some t =>
    cases hp : e.published_parsed with
    | none => simp [processFeedEntry, ht, hp] at h
    | some p =>
      cases hi : e.id with
      | none => simp [processFeedEntry, ht, hp, hi] at h
      | some i =>
        cases hc : dfContains s.df url i
        · cases hf : findCoinsInSentence kws t with
          | error er => simp [processFeedEntry, ht, hp, hi, hc, hf] at h
          | ok found =>
            have heq : processFeedEntry kws sia url e s
                = .ok (⟨concatRow s.df (buildRowData url e t i p (sia t) found), true,
                    s.persisted⟩, .added) := by
              simp [processFeedEntry, ht, hp, hi, hc, hf]
            rw [heq] at h
            injection h with h1
            rw [Prod.mk.injEq] at h1
            exact ⟨t, p, i, found, rfl, rfl, rfl, hc, hf, h1.1.symm⟩
        · simp [processFeedEntry, ht, hp, hi, hc] at h

theorem processFeedEntry_notAdded_state (kws : KeywordIndex) (sia : String → Int) (url : String)
    (e : FeedEntry) (s s' : State) (out : Outcome)
    (h : processFeedEntry kws sia url e s = .ok (s', out)) (hout : out ≠ .added) :
    s' = s := by
  cases ht : e.title with
  | none =>
    simp only [processFeedEntry, ht] at h
    injection h with h1
    rw [Prod.mk.injEq] at h1
    exact h1.1.symm
  | some t =>
    cases hp : e.published_parsed with
    | none =>
      simp only [processFeedEntry, ht, hp] at h
      injection h with h1
      rw [Prod.mk.injEq] at h1
      exact h1.1.symm
    | some p =>
      cases hi : e.id with
      | none =>
        simp only [processFeedEntry, ht, hp, hi] at h
        injection h with h1
        rw [Prod.mk.injEq] at h1
        exact h1.1.symm
      | some i =>
        cases hc : dfContains s.df url i
        · cases hf : findCoinsInSentence kws t with
          | error er => simp [processFeedEntry, ht, hp, hi, hc, hf] at h
          | ok found =>
            have heq : processFeedEntry kws sia url e s
                = .ok (⟨concatRow s.df (buildRowData url e t i p (sia t) found), true,
                    s.persisted⟩, .added) := by
              simp [processFeedEntry, ht, hp, hi, hc, hf]
            rw [heq] at h
            injection h with h1
            rw [Prod.mk.injEq] at h1
            exact absurd h1.2.symm hout
        · have heq := processFeedEntry_dup kws sia url e s t p i ht hp hi (by rw [hc])
          rw [heq] at h
          injection h with h1
          rw [Prod.mk.injEq] at h1
          exact h1.1.symm

theorem processFeedEntry_skip_inv (kws : KeywordIndex) (sia : String → Int) (url : String)
    (e : FeedEntry) (s s' : State)
    (h : processFeedEntry kws sia url e s = .ok (s', .skippedDuplicate)) :
    ∃ t p i, e.title = some t ∧ e.published_parsed = some p ∧ e.id = some i
      ∧ dfContains s.df url i = true := by
  cases ht : e.title with
  | none => simp [processFeedEntry, ht] at h
  | some t =>
    cases hp : e.published_parsed with
    | none => simp [processFeedEntry, ht, hp] at h
    | some p =>
      cases hi : e.id with
      | none => simp [processFeedEntry, ht, hp, hi] at h
      | some i =>
        cases hc : dfContains s.df url i
        · cases hf : findCoinsInSentence kws t with
          | error er => simp [processFeedEntry, ht, hp, hi, hc, hf] at h
          | ok found => simp [processFeedEntry, ht, hp, hi, hc, hf] at h
        · exact ⟨t, p, i, rfl, rfl, rfl, by rw [hc]⟩

theorem processFeedEntry_reject_stable (kws : KeywordIndex) (sia : String → Int) (url : String)
    (e : FeedEntry) (s s' : State) (out : Outcome)
    (h : processFeedEntry kws sia url e s = .ok (s', out))
    (hout : out = .rejectedMissingTitle ∨ out = .rejectedMissingPublished
      ∨ out = .rejectedMissingId) :
    ∀ X : State, processFeedEntry kws sia url e X = .ok (X, out) := by
  cases ht : e.title with
  | none =>
    simp only [processFeedEntry, ht] at h
    injection h with h1
    rw [Prod.mk.injEq] at h1
    intro X
    rw [← h1.2]
    simp [processFeedEntry, ht]
  | some t =>
    cases hp : e.published_parsed with
    | none =>
      simp only [processFeedEntry, ht, hp] at h
      injection h with h1
      rw [Prod.mk.injEq] at h1
      intro X
      rw [← h1.2]
      simp [processFeedEntry, ht, hp]
    | some p =>
      cases hi : e.id with
      | none =>
        simp only [processFeedEntry, ht, hp, hi] at h
        injection h with h1
        rw [Prod.mk.injEq] at h1
        intro X
        rw [← h1.2]
        simp [processFeedEntry, ht, hp, hi]
      | some i =>
        exfalso
        cases hc : dfContains s.df url i
        · cases hf : findCoinsInSentence kws t with
          | error er => simp [processFeedEntry, ht, hp, hi, hc, hf] at h
          | ok found =>
            have heq : processFeedEntry kws sia url e s
                = .ok (⟨concatRow s.df (buildRowData url e t i p (sia t) found), true,
                    s.persisted⟩, .added) := by
              simp [processFeedEntry, ht, hp, hi, hc, hf]
            rw [heq] at h
            injection h with h1
            rw [Prod.mk.injEq] at h1
            rcases hout with hout | hout | hout <;> (rw [hout] at h1; cases h1.2)
        · have heq := processFeedEntry_dup kws sia url e s t p i ht hp hi (by rw [hc])
          rw [heq] at h
          injection h with h1
          rw [Prod.mk.injEq] at h1
          rcases hout with hout | hout | hout <;> (rw [hout] at h1; cases h1.2)

theorem processFeedEntry_rows (kws : KeywordIndex) (sia : String → Int) (url : String)
    (e : FeedEntry) (s r : State) (out : Outcome)
    (h : processFeedEntry kws sia url e s = .ok (r, out)) :
    ∃ tail, r.df.rows = s.df.rows ++ tail := by
  by_cases hadd : out = .added
  · subst hadd
    obtain ⟨t, p, i, found, _, _, _, _, _, hs'⟩ :=
      processFeedEntry_added_inv kws sia url e s r h
    exact ⟨[buildRowData url e t i p (sia t) found], by rw [hs']; rfl⟩
  · have := processFeedEntry_notAdded_state kws sia url e s r out h hadd
    subst this
    exact ⟨[], by simp⟩

/-! ## Lemmas: the entry loop -/

theorem processEntriesLoop_rows (kws : KeywordIndex) (sia : String → Int) (url : String)
    (es : List FeedEntry) : ∀ s : State,
    ∃ tail, (processEntriesLoop kws sia url es s).df.rows = s.df.rows ++ tail := by
  induction es with
  | nil => intro s; exact ⟨[], by simp [processEntriesLoop]⟩
  | cons e es ih =>
    intro s
    cases hpe : processFeedEntry kws sia url e s with
    | error err => exact ⟨[], by simp [processEntriesLoop, hpe]⟩
    | ok pr =>
      obtain ⟨r, out⟩ := pr
      obtain ⟨t1, ht1⟩ := processFeedEntry_rows kws sia url e s r out hpe
      obtain ⟨t2, ht2⟩ := ih r
      refine ⟨t1 ++ t2, ?_⟩
      have hl : processEntriesLoop kws sia url (e :: es) s
          = processEntriesLoop kws sia url es r := by
        simp [processEntriesLoop, hpe]
      rw [hl, ht2, ht1, List.append_assoc]

theorem dfContains_extend (df df' : DataFrame) (u i : String) (tail : List Row)
    (hrows : df'.rows = df.rows ++ tail) (h : dfContains df u i = true) :
    dfContains df' u i = true := by
  unfold dfContains at h ⊢
  rw [hrows, List.any_append, h]
  rfl

theorem dfContains_concat_added (df : DataFrame) (url : String) (e : FeedEntry)
    (t i : String) (p : Nat) (sent : Int) (found : List String)
    (hsrc : "source" ∉ found) (hid : "id" ∉ found) :
    dfContains (concatRow df (buildRowData url e t i p sent found)) url i = true := by
  unfold dfContains concatRow
  simp only [List.any_append, List.any_cons, List.any_nil]
  rw [rowGet_buildRowData_source url e t i p sent found hsrc,
    rowGet_buildRowData_id url e t i p sent found hid]
  simp

theorem processEntriesLoop_idem (kws : KeywordIndex) (sia : String → Int) (url : String)
    (hks : ∀ k ∈ kws.map Prod.fst, k ≠ "source" ∧ k ≠ "id") (es : List FeedEntry) :
    ∀ s : State,
    processEntriesLoop kws sia url es (processEntriesLoop kws sia url es s)
      = processEntriesLoop kws sia url es s := by
  induction es with
  | nil => intro s; simp [processEntriesLoop]
  | cons e es ih =>
    intro s
    cases hpe : processFeedEntry kws sia url e s with
    | error err =>
      simp [processEntriesLoop, hpe]
    | ok pr =>
      obtain ⟨r, out⟩ := pr
      have hstep : processEntriesLoop kws sia url (e :: es) s
          = processEntriesLoop kws sia url es r := by
        simp [processEntriesLoop, hpe]
      rw [hstep]
      cases out with
      | added =>
        obtain ⟨t, p, i, found, ht, hp, hi, hc, hf, hs'⟩ :=
          processFeedEntry_added_inv kws sia url e s r hpe
        have hsrc : "source" ∉ found := fun hm =>
          (hks "source" (findCoins_subset kws t found hf "source" hm)).1 rfl
        have hid : "id" ∉ found := fun hm =>
          (hks "id" (findCoins_subset kws t found hf "id" hm)).2 rfl
        have hcr : dfContains r.df url i = true := by
          rw [hs']
          exact dfContains_concat_added s.df url e t i p (sia t) found hsrc hid
        obtain ⟨t2, ht2⟩ := processEntriesLoop_rows kws sia url es r
        have hcr2 : dfContains (processEntriesLoop kws sia url es r).df url i = true :=
          dfContains_extend _ _ _ _ _ ht2 hcr
        have hskip := processFeedEntry_dup kws sia url e
          (processEntriesLoop kws sia url es r) t p i ht hp hi hcr2
        have hstep2 : processEntriesLoop kws sia url (e :: es)
              (processEntriesLoop kws sia url es r)
            = processEntriesLoop kws sia url es (processEntriesLoop kws sia url es r) := by
          simp [processEntriesLoop, hskip]
        rw [hstep2, ih r]
      | skippedDuplicate =>
        have hr : r = s :=
          processFeedEntry_notAdded_state kws sia url e s r _ hpe (by decide)
        subst hr
        obtain ⟨t, p, i, ht, hp, hi, hc⟩ := processFeedEntry_skip_inv kws sia url e r r hpe
        obtain ⟨t2, ht2⟩ := processEntriesLoop_rows kws sia url es r
        have hcr2 : dfContains (processEntriesLoop kws sia url es r).df url i = true :=
          dfContains_extend _ _ _ _ _ ht2 hc
        have hskip := processFeedEntry_dup kws sia url e
          (processEntriesLoop kws sia url es r) t p i ht hp hi hcr2
        have hstep2 : processEntriesLoop kws sia url (e :: es)
              (processEntriesLoop kws sia url es r)
            = processEntriesLoop kws sia url es (processEntriesLoop kws sia url es r) := by
          simp [processEntriesLoop, hskip]
        rw [hstep2, ih r]
      | rejectedMissingTitle =>
        have hr : r = s :=
          processFeedEntry_notAdded_state kws sia url e s r _ hpe (by decide)
        subst hr
        have hstab := processFeedEntry_reject_stable kws sia url e r r _ hpe (Or.inl rfl)
        have hstep2 : processEntriesLoop kws sia url (e :: es)
              (processEntriesLoop kws sia url es r)
            = processEntriesLoop kws sia url es (processEntriesLoop kws sia url es r) := by
          simp [processEntriesLoop, hstab (processEntriesLoop kws sia url es r)]
        rw [hstep2, ih r]
      | rejectedMissingPublished =>
        have hr : r = s :=
          processFeedEntry_notAdded_state kws sia url e s r _ hpe (by decide)
        subst hr
        have hstab := processFeedEntry_reject_stable kws sia url e r r _ hpe
          (Or.inr (Or.inl rfl))
        have hstep2 : processEntriesLoop kws sia url (e :: es)
              (processEntriesLoop kws sia url es r)
            = processEntriesLoop kws sia url es (processEntriesLoop kws sia url es r) := by
          simp [processEntriesLoop, hstab (processEntriesLoop kws sia url es r)]
        rw [hstep2, ih r]
      | rejectedMissingId =>
        have hr : r = s :=
          processFeedEntry_notAdded_state kws sia url e s r _ hpe (by decide)
        subst hr
        have hstab := processFeedEntry_reject_stable kws sia url e r r _ hpe
          (Or.inr (Or.inr rfl))
        have hstep2 : processEntriesLoop kws sia url (e :: es)
              (processEntriesLoop kws sia url es r)
            = processEntriesLoop kws sia url es (processEntriesLoop kws sia url es r) := by
          simp [processEntriesLoop, hstab (processEntriesLoop kws sia url es r)]
        rw [hstep2, ih r]

theorem processEntriesLoop_skip_missing (kws : KeywordIndex) (sia : String → Int) (url : String)
    (e : FeedEntry) (hmiss : e.title = none ∨ e.published_parsed = none ∨ e.id = none)
    (pre post : List FeedEntry) : ∀ s : State,
    processEntriesLoop kws sia url (pre ++ e :: post) s
      = processEntriesLoop kws sia url (pre ++ post) s := by
  induction pre with
  | nil =>
    intro s
    obtain ⟨out, hout, _, _⟩ := processFeedEntry_missing kws sia url e s hmiss
    simp [processEntriesLoop, hout]
  | cons x pre ih =>
    intro s
    cases hpx : processFeedEntry kws sia url x s with
    | error err => simp [processEntriesLoop, hpx]
    | ok pr =>
      obtain ⟨r, o⟩ := pr
      simp only [List.cons_append, processEntriesLoop, hpx]
      exact ih r

theorem processEntriesLoop_flag (kws : KeywordIndex) (sia : String → Int) (url : String)
    (es : List FeedEntry) : ∀ s : State,
    (processEntriesLoop kws sia url es s).update_db
      = (s.update_db || decide ((processEntriesLoop kws sia url es s).df.rows ≠ s.df.rows)) := by
  induction es with
  | nil => intro s; simp [processEntriesLoop]
  | cons e es ih =>
    intro s
    cases hpe : processFeedEntry kws sia url e s with
    | error err => simp [processEntriesLoop, hpe]
    | ok pr =>
      obtain ⟨r, out⟩ := pr
      have hstep : processEntriesLoop kws sia url (e :: es) s
          = processEntriesLoop kws sia url es r := by
        simp [processEntriesLoop, hpe]
      rw [hstep]
      by_cases hadd : out = .added
      · subst hadd
        obtain ⟨t, p, i, found, ht, hp, hi, hc, hf, hs'⟩ :=
          processFeedEntry_added_inv kws sia url e s r hpe
        obtain ⟨t2, ht2⟩ := processEntriesLoop_rows kws sia url es r
        have hflag : r.update_db = true := by rw [hs']
        have hrows : r.df.rows
            = s.df.rows ++ [buildRowData url e t i p (sia t) found] := by
          rw [hs']
          rfl
        have hne : (processEntriesLoop kws sia url es r).df.rows ≠ s.df.rows := by
          rw [ht2, hrows]
          intro hcontr
          have hlen := congrArg List.length hcontr
          simp [List.length_append] at hlen
        rw [ih r, hflag]
        simp [hne]
      · have hr : r = s := processFeedEntry_notAdded_state kws sia url e s r out hpe hadd
        subst hr
        exact ih r

/-! ## Lemmas: the sparse-column invariant -/

theorem concatRow_columns (df : DataFrame) (row : Row) :
    (concatRow df row).columns.toFinset
      = df.columns.toFinset ∪ (row.map Prod.fst).toFinset := by
  unfold concatRow
  ext x
  simp [List.mem_filter]
  tauto

theorem allRowKeys_append_single (rows : List Row) (r : Row) :
    allRowKeys (rows ++ [r]) = allRowKeys rows ∪ (r.map Prod.fst).toFinset := by
  induction rows with
  | nil => simp [allRowKeys]
  | cons a t ih =>
    simp only [List.cons_append, allRowKeys, List.foldr_cons] at ih ⊢
    rw [ih, Finset.union_assoc]

theorem storeColumnsInv_empty : storeColumnsInv emptyDataFrame := by
  simp [storeColumnsInv, emptyDataFrame, allRowKeys]

theorem storeColumnsInv_concat (df : DataFrame) (row : Row) (h : storeColumnsInv df) :
    storeColumnsInv (concatRow df row) := by
  unfold storeColumnsInv at h ⊢
  rw [concatRow_columns, h]
  have hrows : (concatRow df row).rows = df.rows ++ [row] := rfl
  rw [hrows, allRowKeys_append_single, Finset.union_assoc]

theorem storeColumnsInv_processFeedEntry (kws : KeywordIndex) (sia : String → Int)
    (url : String) (e : FeedEntry) (s r : State) (out : Outcome)
    (hpe : processFeedEntry kws sia url e s = .ok (r, out)) (h : storeColumnsInv s.df) :
    storeColumnsInv r.df := by
  by_cases hadd : out = .added
  · subst hadd
    obtain ⟨t, p, i, found, _, _, _, _, _, hs'⟩ :=
      processFeedEntry_added_inv kws sia url e s r hpe
    rw [hs']
    exact storeColumnsInv_concat _ _ h
  · have hr : r = s := processFeedEntry_notAdded_state kws sia url e s r out hpe hadd
    rw [hr]
    exact h

theorem storeColumnsInv_loop (kws : KeywordIndex) (sia : String → Int) (url : String)
    (es : List FeedEntry) : ∀ s : State, storeColumnsInv s.df →
    storeColumnsInv (processEntriesLoop kws sia url es s).df := by
  induction es with
  | nil => intro s h; simpa [processEntriesLoop] using h
  | cons e es ih =>
    intro s h
    cases hpe : processFeedEntry kws sia url e s with
    | error err => simpa [processEntriesLoop, hpe] using h
    | ok pr =>
      obtain ⟨r, out⟩ := pr
      have hstep : processEntriesLoop kws sia url (e :: es) s
          = processEntriesLoop kws sia url es r := by
        simp [processEntriesLoop, hpe]
      rw [hstep]
      exact ih r (storeColumnsInv_processFeedEntry kws sia url e s r out hpe h)

/-! ## Lemmas: fetch, flush and the pass loop -/

theorem fetchAndProcessFeed_failed (kws : KeywordIndex) (sia : String → Int)
    (feed : Feed) (res : FetchResult) (s : State) (h : isFailedFetch res = true) :
    fetchAndProcessFeed kws sia feed res s = (feedAfterFetch feed res, s) := by
  cases res with
  | netError => rfl
  | response status etag lastModified body =>
    simp only [isFailedFetch, Bool.or_eq_true, Bool.and_eq_true, decide_eq_true_eq] at h
    rcases h with ⟨h200, h304⟩ | ⟨h200, hbody⟩
    · simp [fetchAndProcessFeed, feedAfterFetch, h304, h200]
    · subst h200
      subst hbody
      simp [fetchAndProcessFeed, feedAfterFetch]

theorem flushStep_clean (s : State) (ioOk : Bool) (h : s.update_db = false) :
    flushStep s ioOk = (s, none) := by
  simp [flushStep, h]

theorem flushStep_dirty_ok (s : State) (h : s.update_db = true) :
    flushStep s true = ({ s with persisted := some s.df, update_db := false }, none) := by
  simp [flushStep, h]

theorem flushStep_dirty_fail (s : State) (h : s.update_db = true) :
    flushStep s false = (s, some .ioError) := by
  simp [flushStep, h]

theorem flushStep_ok_flag (s : State) : ((flushStep s true).1).update_db = false := by
  by_cases h : s.update_db = true
  · simp [flushStep, h]
  · rw [Bool.not_eq_true] at h
    simp [flushStep, h]

theorem flushStep_ok_none (s : State) : (flushStep s true).2 = none := by
  by_cases h : s.update_db = true
  · simp [flushStep, h]
  · rw [Bool.not_eq_true] at h
    simp [flushStep, h]

theorem scrapePassLoop_cons_ok (kws : KeywordIndex) (sia : String → Int)
    (xf : Feed) (xres : FetchResult) (rest : List (Feed × FetchResult × Bool))
    (s s' : State)
    (hfs : flushStep (fetchAndProcessFeed kws sia xf xres s).2 true = (s', none)) :
    (scrapePassLoop kws sia ((xf, xres, true) :: rest) s).2
      = (scrapePassLoop kws sia rest s').2 := by
  simp only [scrapePassLoop, hfs]

theorem scrapePassLoop_failed_cons (kws : KeywordIndex) (sia : String → Int)
    (feed : Feed) (res : FetchResult) (io : Bool)
    (steps : List (Feed × FetchResult × Bool)) (s : State)
    (hfail : isFailedFetch res = true) (hclean : s.update_db = false) :
    (scrapePassLoop kws sia ((feed, res, io) :: steps) s).2
      = (scrapePassLoop kws sia steps s).2 := by
  have h1 := fetchAndProcessFeed_failed kws sia feed res s hfail
  have h2 : flushStep (fetchAndProcessFeed kws sia feed res s).2 io = (s, none) := by
    rw [h1]
    exact flushStep_clean s io hclean
  simp only [scrapePassLoop, h2]

theorem scrapePassLoop_isolate (kws : KeywordIndex) (sia : String → Int)
    (post : List (Feed × FetchResult × Bool)) (feed : Feed) (res : FetchResult) (io : Bool)
    (hfail : isFailedFetch res = true) :
    ∀ (pre : List (Feed × FetchResult × Bool)) (s : State),
    (∀ x ∈ pre, x.2.2 = true) → s.update_db = false →
    (scrapePassLoop kws sia (pre ++ (feed, res, io) :: post) s).2
      = (scrapePassLoop kws sia (pre ++ post) s).2 := by
  intro pre
  induction pre with
  | nil =>
    intro s _ hclean
    exact scrapePassLoop_failed_cons kws sia feed res io post s hfail hclean
  | cons x pre ih =>
    intro s hpre hclean
    obtain ⟨xf, xres, xio⟩ := x
    have hxio : xio = true := hpre (xf, xres, xio) (List.mem_cons_self _ _)
    subst hxio
    rcases hfs : flushStep (fetchAndProcessFeed kws sia xf xres s).2 true with ⟨s', err⟩
    have herr : err = none := by
      have hn := flushStep_ok_none (fetchAndProcessFeed kws sia xf xres s).2
      rw [hfs] at hn
      exact hn
    subst herr
    have hflag : s'.update_db = false := by
      have hn := flushStep_ok_flag (fetchAndProcessFeed kws sia xf xres s).2
      rw [hfs] at hn
      exact hn
    rw [List.cons_append, List.cons_append,
      scrapePassLoop_cons_ok kws sia xf xres _ s s' hfs,
      scrapePassLoop_cons_ok kws sia xf xres _ s s' hfs]
    exact ih s' (fun y hy => hpre y (List.mem_cons_of_mem _ hy)) hflag

/-! ## Lemmas: feed-list loading -/

theorem initFeeds_ok : ∀ (lines : List String), (∀ l ∈ lines, rstripNl l ≠ "") →
    ∃ feeds, initFeeds lines = .ok feeds ∧ feeds.length = lines.length
      ∧ List.Forall₂ (fun line f =>
          f.etag = "" ∧ f.modified = ""
          ∧ ((rstripNl line).back = '/' → f.url = rstripNl line)
          ∧ ((rstripNl line).back ≠ '/' → f.url = rstripNl line ++ "/")) lines feeds := by
  intro lines
  induction lines with
  | nil => exact fun _ => ⟨[], rfl, rfl, List.Forall₂.nil⟩
  | cons line rest ih =>
    intro h
    have hline : rstripNl line ≠ "" := h line (List.mem_cons_self _ _)
    obtain ⟨feeds, hfeeds, hlen, hrel⟩ := ih (fun l hl => h l (List.mem_cons_of_mem _ hl))
    refine ⟨⟨if (rstripNl line).back ≠ '/' then rstripNl line ++ "/" else rstripNl line,
      "", ""⟩ :: feeds, ?_, ?_, ?_⟩
    · simp [initFeeds, hline, hfeeds]
    · simp [hlen]
    · refine List.Forall₂.cons ⟨rfl, rfl, ?_, ?_⟩ hrel
      · intro hb
        simp [hb]
      · intro hb
        simp [if_pos hb]

theorem initFeeds_empty_line : ∀ (lines : List String), (∃ l ∈ lines, rstripNl l = "") →
    initFeeds lines = .error .indexError := by
  intro lines
  induction lines with
  | nil =>
    intro h
    rcases h with ⟨l, hl, _⟩
    exact absurd hl (List.not_mem_nil l)
  | cons line rest ih =>
    intro h
    by_cases hline : rstripNl line = ""
    · simp [initFeeds, hline]
    · rcases h with ⟨l, hl, hemp⟩
      rcases List.mem_cons.mp hl with hr | hmem
      · exact absurd (hr ▸ hemp) hline
      · have hrec := ih ⟨l, hmem, hemp⟩
        simp [initFeeds, hline, hrec]

/-! ## Claim theorems -/

/-- C1: running the per-entry ingestion over the same feed response twice
adds nothing on the second pass, and an entry with its mandatory fields
present whose `(source, id)` pair is already stored — whether loaded at
startup (any initial store) or appended earlier in the run — is skipped
with the store unchanged.  The keyword index is assumed not to name the
reserved `source`/`id` columns, which the row dict would otherwise
overwrite. -/
theorem claim_C1_idempotent_ingestion (kws : KeywordIndex) (sia : String → Int) (url : String)
    (hks : ∀ k ∈ kws.map Prod.fst, k ≠ "source" ∧ k ≠ "id") :
    (∀ (entries : List FeedEntry) (s : State),
      processEntriesLoop kws sia url entries (processEntriesLoop kws sia url entries s)
        = processEntriesLoop kws sia url entries s)
    ∧ (∀ (e : FeedEntry) (s : State) (t : String) (p : Nat) (i : String),
        e.title = some t → e.published_parsed = some p → e.id = some i →
        dfContains s.df url i = true →
        processFeedEntry kws sia url e s = .ok (s, .skippedDuplicate)) :=
  ⟨fun entries s => processEntriesLoop_idem kws sia url hks entries s,
   fun e s t p i ht hp hi hc => processFeedEntry_dup kws sia url e s t p i ht hp hi hc⟩

/-- Witness for C1: a concrete second pass over a two-entry response is the
identity. -/
theorem claim_C1_witness :
    processEntriesLoop plainKeywordIndex zeroSia "u/" [sampleEntryOne, sampleEntryTwo]
        (processEntriesLoop plainKeywordIndex zeroSia "u/" [sampleEntryOne, sampleEntryTwo]
          sampleStateEmpty)
      = processEntriesLoop plainKeywordIndex zeroSia "u/" [sampleEntryOne, sampleEntryTwo]
          sampleStateEmpty :=
  (claim_C1_idempotent_ingestion plainKeywordIndex zeroSia "u/" (by decide)).1
    [sampleEntryOne, sampleEntryTwo] sampleStateEmpty

/-- C2: the store's columns are always exactly the fixed base schema plus
the union of the columns recorded by stored rows, this shape is preserved by
every ingestion pass starting from the empty store, and a freshly appended
row records a sentiment cell exactly for its matched keywords: an index
keyword the entry did not match has no recorded value in that row — which is
distinct from a recorded score of 0. -/
theorem claim_C2_sparse_columns (kws : KeywordIndex) (sia : String → Int) (url : String)
    (hd : ∀ k ∈ kws.map Prod.fst, k ∉ initColumns) :
    storeColumnsInv emptyDataFrame
    ∧ (∀ (es : List FeedEntry) (s : State), storeColumnsInv s.df →
        storeColumnsInv (processEntriesLoop kws sia url es s).df)
    ∧ (∀ (e : FeedEntry) (s s' : State),
        processFeedEntry kws sia url e s = .ok (s', .added) →
        ∃ t p i found, e.title = some t ∧ e.published_parsed = some p ∧ e.id = some i
          ∧ findCoinsInSentence kws t = .ok found
          ∧ s'.df.rows = s.df.rows ++ [buildRowData url e t i p (sia t) found]
          ∧ rowKeywordCols (buildRowData url e t i p (sia t) found) = found.toFinset
          ∧ (∀ k, k ∈ kws.map Prod.fst → k ∉ found →
              rowGet (buildRowData url e t i p (sia t) found) k = none)
          ∧ (∀ k ∈ found,
              rowGet (buildRowData url e t i p (sia t) found) k
                = some (.score (sia t)))) := by
  refine ⟨storeColumnsInv_empty, storeColumnsInv_loop kws sia url, ?_⟩
  intro e s s' hpe
  obtain ⟨t, p, i, found, ht, hp, hi, hc, hf, hs'⟩ :=
    processFeedEntry_added_inv kws sia url e s s' hpe
  have hfound_sub : ∀ q ∈ found, q ∈ kws.map Prod.fst := findCoins_subset kws t found hf
  have hfound_init : ∀ q ∈ found, q ∉ initColumns := fun q hq => hd q (hfound_sub q hq)
  refine ⟨t, p, i, found, ht, hp, hi, hf, ?_, ?_, ?_, ?_⟩
  · rw [hs']
    rfl
  · exact rowKeywordCols_buildRowData url e t i p (sia t) found hfound_init
  · intro k hk hkf
    exact rowGet_buildRowData_not_base url e t i p (sia t) found k hkf (hd k hk)
  · intro k hk
    exact rowGet_buildRowData_found url e t i p (sia t) found k hk

/-- Witness for C2: the column invariant after a concrete two-entry run
from the empty store. -/
theorem claim_C2_witness :
    storeColumnsInv (processEntriesLoop plainKeywordIndex zeroSia "u/"
      [sampleEntryOne, sampleEntryTwo] sampleStateEmpty).df :=
  (claim_C2_sparse_columns plainKeywordIndex zeroSia "u/" (by decide)).2.1
    [sampleEntryOne, sampleEntryTwo] sampleStateEmpty
    ((claim_C2_sparse_columns plainKeywordIndex zeroSia "u/" (by decide)).1)

/-- C3: a 304 (not modified) response yields no entries and leaves the
store untouched, and each validator takes the response header value when
that header is present and keeps its prior value when it is absent — it is
never cleared. -/
theorem claim_C3_not_modified (kws : KeywordIndex) (sia : String → Int) (feed : Feed)
    (et lm : Option String) (body : ParseOutcome) (s : State) :
    fetchAndProcessFeed kws sia feed (.response 304 et lm body) s
      = (⟨feed.url, et.getD feed.etag, lm.getD feed.modified⟩, s) := by
  simp [fetchAndProcessFeed, updateValidators]

/-- C4 counterexample: reading word boundaries as "non-alphanumeric
characters or string edges" (the claim's wording), keyword "ai" occurs in
"ai_x"; the code's matcher, for which underscore is a word character, finds
nothing there. -/
theorem claim_C4_counterexample :
    claimBoundaryOccurs "ai" "ai_x" = true
      ∧ findCoinsInSentence [("ai", [])] "ai_x" = .ok [] := by
  constructor
  · decide
  · rfl

/-- C4 (amended): for an index whose keywords and aliases consist of word
characters, the matched set is exactly the keywords whose name or alias
occurs as a case-insensitive whole word, with boundaries at non-word
characters (neither alphanumeric nor underscore) or the string edges. -/
theorem claim_C4_word_boundaries (kws : KeywordIndex) (sentence : String)
    (h : ∀ p ∈ kws, allWordChars p.1 = true ∧ ∀ a ∈ p.2, allWordChars a = true) :
    findCoinsInSentence kws sentence
      = .ok ((kws.filter
          (fun p => wordOccurs p.1 sentence
            || p.2.any (fun a => wordOccurs a sentence))).map Prod.fst) :=
  findCoins_wordChars sentence kws h

/-- Witness for the amended C4: the two boundary examples of the
specification — "AI" does not match inside "said an official", "rate"
matches "Rate hikes loom" case-insensitively. -/
theorem claim_C4_witness :
    findCoinsInSentence [("AI", [])] "said an official" = .ok []
      ∧ findCoinsInSentence [("rate", [])] "Rate hikes loom" = .ok ["rate"] := by
  constructor
  · have h := claim_C4_word_boundaries [("AI", [])] "said an official" (by decide)
    rw [h]
    rfl
  · have h := claim_C4_word_boundaries [("rate", [])] "Rate hikes loom" (by decide)
    rw [h]
    rfl

/-- C5: the dirty flag is exactly "rows were appended since the last
successful persist": entry processing leaves the flag raised precisely when
rows were appended (or it was already raised), a flush does nothing when
the flag is clear, a successful flush persists the snapshot and clears the
flag, and a failing flush surfaces the error with the flag still set. -/
theorem claim_C5_dirty_flag (kws : KeywordIndex) (sia : String → Int) (url : String) :
    (∀ (es : List FeedEntry) (s : State),
      (processEntriesLoop kws sia url es s).update_db
        = (s.update_db
            || decide ((processEntriesLoop kws sia url es s).df.rows ≠ s.df.rows)))
    ∧ (∀ (s : State) (ioOk : Bool), s.update_db = false → flushStep s ioOk = (s, none))
    ∧ (∀ s : State, s.update_db = true →
        flushStep s true = ({ s with persisted := some s.df, update_db := false }, none))
    ∧ (∀ s : State, s.update_db = true → flushStep s false = (s, some .ioError)) :=
  ⟨processEntriesLoop_flag kws sia url, flushStep_clean, flushStep_dirty_ok,
   flushStep_dirty_fail⟩

/-- Witness for C5: the flag equation after a concrete append, and a
no-a-op flush on a clean store. -/
theorem claim_C5_witness :
    (processEntriesLoop plainKeywordIndex zeroSia "u/" [sampleEntryOne]
        sampleStateEmpty).update_db
      = (sampleStateEmpty.update_db
          || decide ((processEntriesLoop plainKeywordIndex zeroSia "u/" [sampleEntryOne]
              sampleStateEmpty).df.rows ≠ sampleStateEmpty.df.rows))
    ∧ flushStep sampleStateEmpty true = (sampleStateEmpty, none) :=
  ⟨(claim_C5_dirty_flag plainKeywordIndex zeroSia "u/").1 [sampleEntryOne] sampleStateEmpty,
   (claim_C5_dirty_flag plainKeywordIndex zeroSia "u/").2.1 sampleStateEmpty true rfl⟩

/-- C6: a failing fetch (error status, network exception, or parse failure)
contributes no entries and leaves that feed's validators uncleared (updated
only from headers actually present, untouched on a request exception or
when headers are absent), and the rest of the pass — states, persists and
the error outcome — is exactly what it would be without that feed. -/
theorem claim_C6_feed_isolation (kws : KeywordIndex) (sia : String → Int) :
    (∀ (feed : Feed) (res : FetchResult) (s : State), isFailedFetch res = true →
      fetchAndProcessFeed kws sia feed res s = (feedAfterFetch feed res, s))
    ∧ (∀ feed : Feed, feedAfterFetch feed .netError = feed)
    ∧ (∀ (feed : Feed) (status : Nat) (body : ParseOutcome),
        feedAfterFetch feed (.response status none none body) = feed)
    ∧ (∀ (post pre : List (Feed × FetchResult × Bool)) (feed : Feed) (res : FetchResult)
        (io : Bool) (s : State), isFailedFetch res = true →
        (∀ x ∈ pre, x.2.2 = true) → s.update_db = false →
        (scrapePassLoop kws sia (pre ++ (feed, res, io) :: post) s).2
          = (scrapePassLoop kws sia (pre ++ post) s).2) := by
  refine ⟨fetchAndProcessFeed_failed kws sia, fun feed => rfl,
    fun feed status body => rfl, ?_⟩
  intro post pre feed res io s hfail hpre hclean
  exact scrapePassLoop_isolate kws sia post feed res io hfail pre s hpre hclean

/-- Witness for C6: a timed-out middle feed between two others changes
nothing of the pass outcome. -/
theorem claim_C6_witness :
    (scrapePassLoop plainKeywordIndex zeroSia
        ([(⟨"a/", "", ""⟩, FetchResult.response 200 none none (.parsed [sampleEntryOne]), true)]
          ++ (⟨"b/", "E", "M"⟩, FetchResult.netError, true)
            :: [(⟨"c/", "", ""⟩, FetchResult.response 200 none none (.parsed [sampleEntryTwo]),
              true)]) sampleStateEmpty).2
      = (scrapePassLoop plainKeywordIndex zeroSia
          ([(⟨"a/", "", ""⟩, FetchResult.response 200 none none (.parsed [sampleEntryOne]), true)]
            ++ [(⟨"c/", "", ""⟩, FetchResult.response 200 none none (.parsed [sampleEntryTwo]),
              true)]) sampleStateEmpty).2 :=
  (claim_C6_feed_isolation plainKeywordIndex zeroSia).2.2.2
    [(⟨"c/", "", ""⟩, FetchResult.response 200 none none (.parsed [sampleEntryTwo]), true)]
    [(⟨"a/", "", ""⟩, FetchResult.response 200 none none (.parsed [sampleEntryOne]), true)]
    ⟨"b/", "E", "M"⟩ FetchResult.netError true sampleStateEmpty rfl
    (fun x hx => by rw [List.mem_singleton.mp hx]) rfl

/-- C7: an entry missing any of the mandatory title, published or id fields
is rejected with the store untouched — even when its pair is unseen — while
the other entries of the feed are processed as if it were absent; and a
stored row carries the optional author and link fields exactly when the
entry has them. -/
theorem claim_C7_mandatory_fields (kws : KeywordIndex) (sia : String → Int) (url : String)
    (hd : ∀ k ∈ kws.map Prod.fst, k ∉ initColumns) :
    (∀ (e : FeedEntry) (s : State),
      (e.title = none ∨ e.published_parsed = none ∨ e.id = none) →
      ∃ out, processFeedEntry kws sia url e s = .ok (s, out)
        ∧ out ≠ .added ∧ out ≠ .skippedDuplicate)
    ∧ (∀ (e : FeedEntry) (pre post : List FeedEntry) (s : State),
        (e.title = none ∨ e.published_parsed = none ∨ e.id = none) →
        processEntriesLoop kws sia url (pre ++ e :: post) s
          = processEntriesLoop kws sia url (pre ++ post) s)
    ∧ (∀ (e : FeedEntry) (s s' : State),
        processFeedEntry kws sia url e s = .ok (s', .added) →
        ∃ row, s'.df.rows = s.df.rows ++ [row]
          ∧ rowGet row "author" = e.author.map Cell.str
          ∧ rowGet row "link" = e.link.map Cell.str) := by
  refine ⟨processFeedEntry_missing kws sia url, ?_, ?_⟩
  · intro e pre post s hmiss
    exact processEntriesLoop_skip_missing kws sia url e hmiss pre post s
  · intro e s s' hpe
    obtain ⟨t, p, i, found, ht, hp, hi, hc, hf, hs'⟩ :=
      processFeedEntry_added_inv kws sia url e s s' hpe
    have hsub := findCoins_subset kws t found hf
    have hauthor : "author" ∉ found := fun hm => (hd "author" (hsub "author" hm)) (by decide)
    have hlink : "link" ∉ found := fun hm => (hd "link" (hsub "link" hm)) (by decide)
    refine ⟨buildRowData url e t i p (sia t) found, by rw [hs']; rfl, ?_, ?_⟩
    · exact rowGet_buildRowData_author url e t i p (sia t) found hauthor
    · exact rowGet_buildRowData_link url e t i p (sia t) found hlink

/-- Witness for C7: an entry missing its published field, on an otherwise
valid and unseen pair, is skipped with the store unchanged. -/
theorem claim_C7_witness :
    ∃ out, processFeedEntry plainKeywordIndex zeroSia "u/"
        ⟨some "Bitcoin rallies", none, some "a9", none, none⟩ sampleStateEmpty
      = .ok (sampleStateEmpty, out) ∧ out ≠ .added ∧ out ≠ .skippedDuplicate :=
  (claim_C7_mandatory_fields plainKeywordIndex zeroSia "u/" (by decide)).1
    ⟨some "Bitcoin rallies", none, some "a9", none, none⟩ sampleStateEmpty
    (Or.inr (Or.inl rfl))

/-- C8 counterexample: the store already contains the pair
("http://a/", "1"), yet the raw append (the `pd.concat` step) neither fails
nor leaves the store unchanged — it simply appends the duplicate row; no
DuplicateKeyError exists in the code. -/
theorem claim_C8_counterexample :
    dfContains dupStore "http://a/" "1" = true
      ∧ (concatRow dupStore dupRow).rows = dupStore.rows ++ [dupRow]
      ∧ (concatRow dupStore dupRow).rows ≠ dupStore.rows := by
  refine ⟨by decide, rfl, by decide⟩

/-- C8 (amended): duplicates are prevented solely by the caller-side
containment check in `_processFeedEntry`, which silently skips the entry —
store, flag and all else unchanged, no error of any kind — while the append
step itself has no defensive duplicate check. -/
theorem claim_C8_duplicate_skip (kws : KeywordIndex) (sia : String → Int) (url : String)
    (e : FeedEntry) (s : State) (t : String) (p : Nat) (i : String)
    (ht : e.title = some t) (hp : e.published_parsed = some p) (hi : e.id = some i)
    (hc : dfContains s.df url i = true) :
    processFeedEntry kws sia url e s = .ok (s, .skippedDuplicate) :=
  processFeedEntry_dup kws sia url e s t p i ht hp hi hc

/-- Witness for the amended C8: a duplicate of the stored pair is skipped
and the state returned unchanged. -/
theorem claim_C8_witness :
    processFeedEntry plainKeywordIndex zeroSia "http://a/"
        ⟨some "t", some 0, some "1", none, none⟩ ⟨dupStore, false, none⟩
      = .ok (⟨dupStore, false, none⟩, .skippedDuplicate) :=
  claim_C8_duplicate_skip plainKeywordIndex zeroSia "http://a/"
    ⟨some "t", some 0, some "1", none, none⟩ ⟨dupStore, false, none⟩ "t" 0 "1"
    rfl rfl rfl (by decide)

/-- C9: keyword matching is total whenever no keyword or alias contains a
regex metacharacter, but a keyword interpolated unescaped into a pattern
that cannot compile (here one starting with '+': nothing to repeat) raises,
and the per-feed handler then silently drops the erroring and all remaining
entries of that feed: the two-entry feed stores nothing under the bad
index, while the same entries are both stored under a plain one. -/
theorem claim_C9_regex_injection (sentence : String) :
    (∀ kws : KeywordIndex,
      (∀ p ∈ kws, noMeta p.1 = true ∧ ∀ a ∈ p.2, noMeta a = true) →
      ∃ l, findCoinsInSentence kws sentence = .ok l)
    ∧ isKeywordInSenctence "Bitcoin rallies" "+coin" = .error .invalidPattern
    ∧ processEntriesLoop metaKeywordIndex zeroSia "u/" [sampleEntryOne, sampleEntryTwo]
        sampleStateEmpty = sampleStateEmpty
    ∧ (processEntriesLoop plainKeywordIndex zeroSia "u/" [sampleEntryOne, sampleEntryTwo]
        sampleStateEmpty).df.rows.length = 2 := by
  refine ⟨fun kws h => findCoins_total sentence kws h, rfl, by decide, by decide⟩

/-- Witness for C9: a metacharacter-free index matches without error. -/
theorem claim_C9_witness :
    ∃ l, findCoinsInSentence [("btc", ["xbt"])] "BTC soars" = .ok l :=
  (claim_C9_regex_injection "BTC soars").1 [("btc", ["xbt"])] (by decide)

/-- C10: feed-list loading strips the newline, appends a trailing slash to
every line not already ending in one and starts validators empty, and it is
total exactly on lists whose stripped lines are all nonempty: any empty
line makes initialization fail with the IndexError of `url[-1]`. -/
theorem claim_C10_feed_lines (lines : List String) :
    ((∀ l ∈ lines, rstripNl l ≠ "") →
      ∃ feeds, initFeeds lines = .ok feeds ∧ feeds.length = lines.length
        ∧ List.Forall₂ (fun line f =>
            f.etag = "" ∧ f.modified = ""
            ∧ ((rstripNl line).back = '/' → f.url = rstripNl line)
            ∧ ((rstripNl line).back ≠ '/' → f.url = rstripNl line ++ "/")) lines feeds)
    ∧ ((∃ l ∈ lines, rstripNl l = "") → initFeeds lines = .error .indexError) :=
  ⟨initFeeds_ok lines, initFeeds_empty_line lines⟩

/-- Witness for C10: a well-formed line loads with a slash appended, and a
file containing an empty line fails with IndexError. -/
theorem claim_C10_witness :
    (∃ feeds, initFeeds ["http://a.com\n"] = .ok feeds
      ∧ feeds.length = ["http://a.com\n"].length
      ∧ List.Forall₂ (fun line f =>
          f.etag = "" ∧ f.modified = ""
          ∧ ((rstripNl line).back = '/' → f.url = rstripNl line)
          ∧ ((rstripNl line).back ≠ '/' → f.url = rstripNl line ++ "/"))
        ["http://a.com\n"] feeds)
    ∧ initFeeds ["http://a.com\n", "\n"] = .error .indexError :=
  ⟨(claim_C10_feed_lines ["http://a.com\n"]).1 (by decide),
   (claim_C10_feed_lines ["http://a.com\n", "\n"]).2 ⟨"\n", by decide, by decide⟩⟩

end FeedScraper
